import Mathlib

/-!
Verification of the apply-elimination pass of Boolector
(`src/simplifier/btorelimapplies.c`, function `btor_eliminate_applies`)
against its specification.

The fixpoint driver itself is embedded faithfully from the C source.  The
collaborators that the driver consumes — the hash-consed node universe, the
beta-reducer primitive `btor_beta_reduce_full`, and the rebuild pass
`btor_substitute_and_rebuild` — are not part of the given sources; they are
modelled from the specification's contracts (§3, §4.2, §4.3, §4.5, §4.6).

Formula graphs are modelled as terms with de Bruijn indices for
lambda-bound parameters; hash-consing identity is structural equality, so
the node set of a graph is the deduplicated list of its subterms.  The
reference-count bookkeeping of the pass is modelled by an integer ledger
that records every acquire/release the pass performs on beta-reducer
output, cache entries and substitution-map entries.
-/

/-- A formula node: free variable, lambda-bound parameter (de Bruijn index),
lambda, or function application. -/
inductive Term : Type where
  | var : Nat → Term
  | bvar : Nat → Term
  | lam : Term → Term
  | app : Term → Term → Term
deriving DecidableEq, Repr

namespace ElimApplies

/-- All subterms of a term, in preorder, with duplicates. -/
def subterms : Term → List Term
  | Term.var n => [Term.var n]
  | Term.bvar n => [Term.bvar n]
  | Term.lam b => Term.lam b :: subterms b
  | Term.app f a => Term.app f a :: (subterms f ++ subterms a)

/-- The node set of a graph: hash-consing makes structurally equal subterms
the same node, so nodes are the deduplicated subterms. -/
def nodes (g : Term) : List Term := (subterms g).dedup

/-- Whether a node is a lambda node. -/
def isLambda : Term → Bool
  | Term.lam _ => true
  | _ => false

/-- Modelled from the spec: the Lambda Registry (§3), "the set of lambda
nodes currently present in the formula"; the registry hash table
`btor->lambdas` is maintained by the node universe, which is not among the
given sources. -/
def lambdasOf (g : Term) : List Term := (nodes g).filter isLambda

/-- Whether a node is an apply node whose function child is `L`. -/
def isApplyOf (L : Term) : Term → Bool
  | Term.app f _ => decide (f = L)
  | _ => false

/-- Modelled from the spec: the Apply Collector's underlying enumeration
(§4.2, §3 "Application Edge"): the application parents of a lambda are the
apply nodes of the graph that apply it.  The parent-edge iterator
`btor_iter_apply_parent_*` is not among the given sources. -/
def applyParents (g L : Term) : List Term := (nodes g).filter (isApplyOf L)

/-- The parameterized flag (§3): true iff the node's value depends on a
lambda parameter not bound within the node itself, i.e. the term has a free
de Bruijn index. -/
def hasFreeBVar : Term → Nat → Bool
  | Term.var _, _ => false
  | Term.bvar n, d => decide (d ≤ n)
  | Term.lam b, d => hasFreeBVar b (d + 1)
  | Term.app f a, d => hasFreeBVar f d || hasFreeBVar a d

/-- A node is parameterized iff it has a free de Bruijn index. -/
def parameterized (t : Term) : Bool := hasFreeBVar t 0

/-- The ground applications collected in one round: for every lambda of the
registry, its non-parameterized apply parents, in registry order (C source
lines 49–66: the parameterized ones are skipped by `continue`). -/
def groundApplies (g : Term) : List Term :=
  (lambdasOf g).flatMap (fun L => (applyParents g L).filter (fun a => !parameterized a))

/-- The post-convergence debug check of the pass (C source lines 81–94):
every apply parent of every lambda in the registry is parameterized. -/
def allApplyParentsParameterized (g : Term) : Bool :=
  (lambdasOf g).all (fun L => (applyParents g L).all parameterized)

/-- Capture-free substitution of the closed term `a` for de Bruijn index
`d`.  Only closed arguments are ever substituted by the pass (it reduces
non-parameterized applies only), so no shifting of `a` is needed. -/
def substB (a : Term) : Term → Nat → Term
  | Term.var n, _ => Term.var n
  | Term.bvar n, d => if n = d then a else if d < n then Term.bvar (n - 1) else Term.bvar n
  | Term.lam b, d => Term.lam (substB a b (d + 1))
  | Term.app f x, d => Term.app (substB a f d) (substB a x d)

/-- Modelled from the spec: the beta-reduction primitive (§4.3) "replaces
the lambda's bound parameter with the concrete argument throughout the
lambda body, recursively" (see also Scenario B in §8: the inner application
created by the substitution is not reduced further in the same call);
`btor_beta_reduce_full` itself is not among the given sources. -/
def betaStep : Term → Term
  | Term.app (Term.lam b) a => substB a b 0
  | t => t

/-- The Pair Cache key of an apply node: the pair of its function and its
argument (§3 "Pair", §4.6). -/
def pairKey : Term → Term × Term
  | Term.app f a => (f, a)
  | t => (t, t)

/-- Association-list lookup in the Pair Cache. -/
def lookupCache (k : Term × Term) : List ((Term × Term) × Term) → Option Term
  | [] => none
  | (k', v) :: rest => if k' = k then some v else lookupCache k rest

/-- The mutable state threaded through the pass besides the graph:
* `cache`   — the Pair Cache, one entry per primitively reduced pair, each
  entry holding one reference (§4.6);
* `enc`     — instrumentation: every apply node ever handed to the
  beta-reducer, most recent first;
* `red`     — instrumentation: every pair that caused a primitive (cache
  missing) reduction, most recent first;
* `ledger`  — the net number of node references the pass currently holds:
  +1 for each reference acquired (reducer output, cache entry,
  substitution-map entry), −1 for each release. -/
structure RState where
  cache : List ((Term × Term) × Term)
  enc : List Term
  red : List (Term × Term)
  ledger : Int
deriving DecidableEq, Repr

/-- Modelled from the spec: `reduce(applyNode, cache) → ownedNode` (§4.3)
backed by the Pair Cache (§4.6).  On a cache hit the memoized node is
returned; on a miss the primitive reduction runs and the result is stored
with one cache-owned reference.  The ledger accounts, per call, for the C
driver's lines 62–65: +1 for the returned owned reference, +1 for the
substitution map's own reference taken by `btor_insert_substitution`, −1
for the `btor_node_release` of the returned reference, and on a miss +1 for
the new cache entry's reference. -/
def btor_beta_reduce_full (a : Term) (s : RState) : Term × RState :=
  let k := pairKey a
  match lookupCache k s.cache with
  | some v => (v, { s with enc := a :: s.enc, ledger := s.ledger + 1 })
  | none =>
    let v := betaStep a
    (v, { cache := (k, v) :: s.cache, enc := a :: s.enc,
          red := k :: s.red, ledger := s.ledger + 2 })

/-- Association-list lookup in a round's substitution map. -/
def lookupSub (t : Term) : List (Term × Term) → Option Term
  | [] => none
  | (k, v) :: rest => if k = t then some v else lookupSub t rest

/-- Modelled from the spec: the Rebuild Pass (§4.5): every occurrence of a
mapped key is structurally replaced by its mapped value; replacement values
are not traversed again ("not required to chase multi-hop substitution
chains within one invocation"); idempotent on the empty map.
`btor_substitute_and_rebuild` itself is not among the given sources. -/
def btor_substitute_and_rebuild (m : List (Term × Term)) : Term → Term
  | Term.var n => (lookupSub (Term.var n) m).getD (Term.var n)
  | Term.bvar n => (lookupSub (Term.bvar n) m).getD (Term.bvar n)
  | Term.lam b =>
    match lookupSub (Term.lam b) m with
    | some v => v
    | none => Term.lam (btor_substitute_and_rebuild m b)
  | Term.app f a =>
    match lookupSub (Term.app f a) m with
    | some v => v
    | none => Term.app (btor_substitute_and_rebuild m f) (btor_substitute_and_rebuild m a)

/-- Processing of one collected ground apply (C source lines 61–65):
beta-reduce it and append the substitution pair to the round's map. -/
def roundStep (acc : List (Term × Term) × RState) (a : Term) :
    List (Term × Term) × RState :=
  let r := btor_beta_reduce_full a acc.2
  (acc.1 ++ [(a, r.1)], r.2)

/-- One round's collection phase (C source lines 45–67): walk the registry,
skip parameterized apply parents, beta-reduce each ground apply and record
the substitution.  Returns the round's substitution map (insertion order)
and the updated threaded state; `num_applies` is the map's length. -/
def runRound (g : Term) (s : RState) : List (Term × Term) × RState :=
  (groundApplies g).foldl roundStep ([], s)

/-- The observable outcome of one invocation of the pass. -/
structure PassResult where
  /-- The graph after the pass returns. -/
  graph : Term
  /-- The substitution map of each executed round, in round order. -/
  rounds : List (List (Term × Term))
  /-- The maps passed to `btor_substitute_and_rebuild`, in call order. -/
  rebuilds : List (List (Term × Term))
  /-- The per-round diagnostic records `(num_applies, round)` (C line 70). -/
  msgs : List (Nat × Nat)
  /-- The threaded state after Pair Cache teardown. -/
  state : RState
  /-- Whether a Pair Cache was allocated (C line 35). -/
  cacheCreated : Bool
  /-- Whether `btor->time.elimapplies` was updated (C line 105). -/
  timeUpdated : Bool
deriving DecidableEq, Repr

/-- Shape of the executed rounds of a terminating run with a nonempty
registry: at least one round, every round but the last records at least one
substitution, and the last round records zero (the do-while loop exits
exactly after the first zero-substitution round, C line 79). -/
def roundsShape : List (List (Term × Term)) → Bool
  | [] => false
  | [m] => m.isEmpty
  | m :: rest => !m.isEmpty && roundsShape rest

/-- Every round's substitution map has pairwise distinct keys (the debug
assertion at C line 63 never fires). -/
def allRoundKeysDistinct (rs : List (List (Term × Term))) : Bool :=
  rs.all (fun m => decide (m.map Prod.fst).Nodup)

/-- Every key of every round's substitution map is non-parameterized. -/
def allRoundKeysGround (rs : List (List (Term × Term))) : Bool :=
  rs.all (fun m => m.all (fun p => !parameterized p.1))

/-- Every node ever handed to the beta-reducer is non-parameterized. -/
def allEncGround (l : List Term) : Bool :=
  l.all (fun a => !parameterized a)

/-- Number of occurrences of a pair in the primitive-reduction log. -/
def redCount (k : Term × Term) (l : List (Term × Term)) : Nat :=
  @List.count _ instBEqOfDecidableEq k l

/-- The do-while loop of `btor_eliminate_applies` (C lines 43–79) plus the
teardown (lines 96–105), with explicit fuel since general termination of
the round loop is an open question (spec §9).  Each iteration: collect and
reduce (`runRound`), emit the round diagnostic, call
`btor_substitute_and_rebuild` with the round's map unconditionally, release
the map's references (`btor_delete_substitutions`), increment the round
counter, and continue while `num_applies > 0`.  On exit the Pair Cache is
drained, releasing one reference per entry. -/
def elimLoop : Nat → Term → RState → Nat → Option PassResult
  | 0, _, _, _ => none
  | fuel + 1, g, s, round =>
    let pr := runRound g s
    let subs := pr.1
    let s1 := pr.2
    let g' := btor_substitute_and_rebuild subs g
    let s2 : RState := { s1 with ledger := s1.ledger - subs.length }
    if 0 < subs.length then
      match elimLoop fuel g' s2 (round + 1) with
      | none => none
      | some r =>
        some { r with
                rounds := subs :: r.rounds,
                rebuilds := subs :: r.rebuilds,
                msgs := (subs.length, round) :: r.msgs }
    else
      some { graph := g'
             rounds := [subs]
             rebuilds := [subs]
             msgs := [(subs.length, round)]
             state := { s2 with ledger := s2.ledger - s2.cache.length }
             cacheCreated := true
             timeUpdated := true }

/-- The pass `btor_eliminate_applies` (C lines 19–114): if the lambda
registry is empty, return immediately (line 31) — no Pair Cache, no rounds,
no diagnostics, no time-statistic update; otherwise create the Pair Cache
and run the round loop to fixpoint. -/
def btor_eliminate_applies (fuel : Nat) (g : Term) : Option PassResult :=
  if lambdasOf g = [] then
    some { graph := g, rounds := [], rebuilds := [], msgs := [],
           state := { cache := [], enc := [], red := [], ledger := 0 },
           cacheCreated := false, timeUpdated := false }
  else
    elimLoop fuel g { cache := [], enc := [], red := [], ledger := 0 } 1

/-- Invariant of the threaded state: the primitive-reduction log has no
duplicates and is exactly the Pair Cache's key list; every node handed to
the beta-reducer has its pair in the log; every node handed to the
beta-reducer is non-parameterized. -/
def StateInv (s : RState) : Prop :=
  s.red.Nodup ∧ s.red = s.cache.map Prod.fst ∧
    (∀ a ∈ s.enc, pairKey a ∈ s.red) ∧ (∀ a ∈ s.enc, parameterized a = false)

/-- The identity lambda `λy. y`. -/
def idLam : Term := Term.lam (Term.bvar 0)

/-- The free variable `v` of the spec's scenarios. -/
def v0 : Term := Term.var 0

/-- The lambda `λx. (λy. y)(x)` of Scenario B (spec §8). -/
def outerLam : Term := Term.lam (Term.app idLam (Term.bvar 0))

/-- Scenario A's graph (spec §8): `(λy. y)(v)`. -/
def scenarioA : Term := Term.app idLam v0

/-- Scenario B's graph (spec §8): `(λx. (λy. y)(x))(v)`. -/
def scenarioB : Term := Term.app outerLam v0

/-- A graph in which the apply `(λy. y)(v)` is handed to the beta-reducer
in two different rounds: it is collected in round 1, and reappears in round
2 inside the replacement of `(λz. (λy. y)(v))(v)`, so its second encounter
is served from the Pair Cache. -/
def twiceG : Term :=
  Term.app (Term.app idLam v0) (Term.app (Term.lam (Term.app idLam v0)) v0)

/-- The outcome of the pass on Scenario A with fuel 2: one substitution in
round 1, zero in round 2, result `v`. -/
def resA : PassResult :=
  { graph := v0,
    rounds := [[(scenarioA, v0)], []],
    rebuilds := [[(scenarioA, v0)], []],
    msgs := [(1, 1), (0, 2)],
    state := { cache := [((idLam, v0), v0)], enc := [scenarioA],
               red := [(idLam, v0)], ledger := 0 },
    cacheCreated := true, timeUpdated := true }

/-- The outcome of the pass on Scenario B with fuel 3: the outer apply is
eliminated in round 1 (yielding the fresh ground apply `(λy. y)(v)`), the
inner one in round 2, round 3 is empty. -/
def resB : PassResult :=
  { graph := v0,
    rounds := [[(scenarioB, Term.app idLam v0)], [(Term.app idLam v0, v0)], []],
    rebuilds := [[(scenarioB, Term.app idLam v0)], [(Term.app idLam v0, v0)], []],
    msgs := [(1, 1), (1, 2), (0, 3)],
    state := { cache := [((idLam, v0), v0), ((outerLam, v0), Term.app idLam v0)],
               enc := [Term.app idLam v0, scenarioB],
               red := [(idLam, v0), (outerLam, v0)], ledger := 0 },
    cacheCreated := true, timeUpdated := true }

/-- The outcome of the pass on the already-converged graph `outerLam`:
one round with zero substitutions; the only apply parent in the graph is
parameterized. -/
def resConv : PassResult :=
  { graph := outerLam,
    rounds := [[]], rebuilds := [[]], msgs := [(0, 1)],
    state := { cache := [], enc := [], red := [], ledger := 0 },
    cacheCreated := true, timeUpdated := true }

/-- The outcome of the pass on `twiceG` with fuel 4: the apply
`(λy. y)(v)` is handed to the beta-reducer twice (once in round 1, once in
round 2) but primitively reduced only once. -/
def resTwice : PassResult :=
  { graph := Term.app v0 v0,
    rounds := [[(Term.app (Term.lam scenarioA) v0, scenarioA), (scenarioA, v0)],
               [(scenarioA, v0)], []],
    rebuilds := [[(Term.app (Term.lam scenarioA) v0, scenarioA), (scenarioA, v0)],
                 [(scenarioA, v0)], []],
    msgs := [(2, 1), (1, 2), (0, 3)],
    state := { cache := [((idLam, v0), v0), ((Term.lam scenarioA, v0), scenarioA)],
               enc := [scenarioA, scenarioA, Term.app (Term.lam scenarioA) v0],
               red := [(idLam, v0), (Term.lam scenarioA, v0)], ledger := 0 },
    cacheCreated := true, timeUpdated := true }

/-- The outcome of the pass on any graph with an empty lambda registry,
here `bvar 3`: untouched graph, no rounds, no cache, no diagnostics, no
time-statistic update. -/
def resEmptyReg : PassResult :=
  { graph := Term.bvar 3, rounds := [], rebuilds := [], msgs := [],
    state := { cache := [], enc := [], red := [], ledger := 0 },
    cacheCreated := false, timeUpdated := false }

/-! ### Lemmas about the modelled collaborators -/

/-- Rebuilding with the empty substitution map is the identity (§4.5:
"idempotent on an empty map"). -/
theorem rebuild_nil (t : Term) : btor_substitute_and_rebuild [] t = t := by
  induction t with
  | var n => simp [btor_substitute_and_rebuild, lookupSub]
  | bvar n => simp [btor_substitute_and_rebuild, lookupSub]
  | lam b ih => simp [btor_substitute_and_rebuild, lookupSub, ih]
  | app f a ihf iha => simp [btor_substitute_and_rebuild, lookupSub, ihf, iha]

/-- Pair Cache lookup fails exactly when the key is not among the cache's
keys. -/
theorem lookupCache_none_iff (c : List ((Term × Term) × Term)) (k : Term × Term) :
    lookupCache k c = none ↔ k ∉ c.map Prod.fst := by
  induction c with
  | nil => simp [lookupCache]
  | cons p rest ih =>
    obtain ⟨k', v⟩ := p
    by_cases h : k' = k
    · subst h
      simp [lookupCache]
    · simp [lookupCache, h, ih, Ne.symm h]

/-- A node is in `groundApplies` only if it is non-parameterized. -/
theorem mem_groundApplies_nonparam {g a : Term} (h : a ∈ groundApplies g) :
    parameterized a = false := by
  unfold groundApplies at h
  obtain ⟨L, _, hL⟩ := List.mem_flatMap.mp h
  have := (List.mem_filter.mp hL).2
  simpa using this

/-- An apply node applies exactly one function. -/
theorem isApplyOf_inj {L L' a : Term} (h : isApplyOf L a = true)
    (h' : isApplyOf L' a = true) : L = L' := by
  cases a with
  | var n => simp [isApplyOf] at h
  | bvar n => simp [isApplyOf] at h
  | lam b => simp [isApplyOf] at h
  | app f x =>
    simp [isApplyOf] at h h'
    rw [← h, ← h']

/-- The collected ground applies of one round are pairwise distinct: the
registry and every parent list are duplicate-free (hash-consing), and an
apply node is a parent of exactly one lambda. -/
theorem groundApplies_nodup (g : Term) : (groundApplies g).Nodup := by
  unfold groundApplies
  rw [List.nodup_flatMap]
  constructor
  · intro L _
    exact (((List.nodup_dedup _).filter _).filter _)
  · have hl : (lambdasOf g).Nodup := (List.nodup_dedup _).filter _
    refine hl.imp ?_
    intro L L' hne a ha ha'
    have h1 := ((List.mem_filter.mp (List.mem_filter.mp ha).1).2)
    have h2 := ((List.mem_filter.mp (List.mem_filter.mp ha').1).2)
    exact hne (isApplyOf_inj h1 h2)

/-- Zero collected applies in a round means exactly that every apply parent
of every registered lambda is parameterized — the property the debug check
at C lines 81–94 asserts. -/
theorem groundApplies_nil_iff (g : Term) :
    groundApplies g = [] ↔ allApplyParentsParameterized g = true := by
  unfold groundApplies allApplyParentsParameterized
  rw [List.flatMap_eq_nil_iff, List.all_eq_true]
  refine forall_congr' fun L => forall_congr' fun _ => ?_
  rw [List.filter_eq_nil_iff, List.all_eq_true]
  refine forall_congr' fun a => forall_congr' fun _ => ?_
  simp

/-! ### Lemmas about one round -/

/-- Folding `roundStep` appends exactly the processed applies as keys. -/
theorem foldl_roundStep_keys (l : List Term) :
    ∀ acc : List (Term × Term) × RState,
      ((l.foldl roundStep acc).1).map Prod.fst = acc.1.map Prod.fst ++ l := by
  induction l with
  | nil => intro acc; simp
  | cons a l ih =>
    intro acc
    rw [List.foldl_cons, ih]
    simp [roundStep]

/-- The keys of a round's substitution map are exactly the collected ground
applies, in collection order. -/
theorem runRound_keys (g : Term) (s : RState) :
    ((runRound g s).1).map Prod.fst = groundApplies g := by
  simpa using foldl_roundStep_keys (groundApplies g) ([], s)

/-- A round records zero substitutions iff the graph has no collectable
ground applies. -/
theorem runRound_nil_iff (g : Term) (s : RState) :
    (runRound g s).1 = [] ↔ groundApplies g = [] := by
  rw [← runRound_keys g s]
  simp

/-- On a graph with no collectable ground applies a round does nothing. -/
theorem runRound_of_nil {g : Term} (h : groundApplies g = []) (s : RState) :
    runRound g s = ([], s) := by
  unfold runRound
  rw [h]
  rfl

/-- One `roundStep` preserves the quantity
`ledger − |cache| − |substitution map|`: a cache hit adds one reference
(kept by the map) and one map entry; a miss additionally adds one cache
entry and its reference. -/
theorem roundStep_measure (acc : List (Term × Term) × RState) (a : Term) :
    (roundStep acc a).2.ledger - ((roundStep acc a).2.cache.length : Int)
        - (((roundStep acc a).1).length : Int)
      = acc.2.ledger - (acc.2.cache.length : Int) - ((acc.1).length : Int) := by
  unfold roundStep btor_beta_reduce_full
  cases h : lookupCache (pairKey a) acc.2.cache with
  | some v =>
    simp only [h]
    simp
    omega
  | none =>
    simp only [h]
    simp
    omega

/-- The round fold preserves `ledger − |cache| − |substitution map|`. -/
theorem foldl_roundStep_measure (l : List Term) :
    ∀ acc : List (Term × Term) × RState,
      (l.foldl roundStep acc).2.ledger
          - (((l.foldl roundStep acc).2.cache.length : Int))
          - (((l.foldl roundStep acc).1).length : Int)
        = acc.2.ledger - (acc.2.cache.length : Int) - ((acc.1).length : Int) := by
  induction l with
  | nil => intro acc; rfl
  | cons a l ih =>
    intro acc
    rw [List.foldl_cons, ih, roundStep_measure]

/-- Reference-count bookkeeping of one round (C lines 45–67): afterwards
the ledger exceeds its pre-round value by the number of substitution-map
entries plus the number of new cache entries. -/
theorem runRound_measure (g : Term) (s : RState) :
    (runRound g s).2.ledger - ((runRound g s).2.cache.length : Int)
        - (((runRound g s).1).length : Int)
      = s.ledger - (s.cache.length : Int) := by
  simpa using foldl_roundStep_measure (groundApplies g) ([], s)

/-- One call to the beta-reducer preserves the state invariant, provided
the handed node is non-parameterized. -/
theorem betaReduceFull_inv {a : Term} {s : RState} (hp : parameterized a = false)
    (hs : StateInv s) : StateInv (btor_beta_reduce_full a s).2 := by
  obtain ⟨h1, h2, h3, h4⟩ := hs
  unfold btor_beta_reduce_full
  cases h : lookupCache (pairKey a) s.cache with
  | some v =>
    simp only [h]
    refine ⟨h1, h2, ?_, ?_⟩
    · intro b hb
      rcases List.mem_cons.mp hb with hb | hb
      · subst hb
        have hmem : pairKey b ∈ s.cache.map Prod.fst := by
          by_contra hc
          rw [← lookupCache_none_iff] at hc
          rw [hc] at h
          exact Option.noConfusion h
        rwa [← h2] at hmem
      · exact h3 b hb
    · intro b hb
      rcases List.mem_cons.mp hb with hb | hb
      · subst hb; exact hp
      · exact h4 b hb
  | none =>
    simp only [h]
    have hk : pairKey a ∉ s.red := by
      rw [h2]
      exact (lookupCache_none_iff _ _).mp h
    refine ⟨List.nodup_cons.mpr ⟨hk, h1⟩, ?_, ?_, ?_⟩
    · simp [h2]
    · intro b hb
      rcases List.mem_cons.mp hb with hb | hb
      · subst hb; exact List.mem_cons_self _ _
      · exact List.mem_cons_of_mem _ (h3 b hb)
    · intro b hb
      rcases List.mem_cons.mp hb with hb | hb
      · subst hb; exact hp
      · exact h4 b hb

/-- The round fold preserves the state invariant when every processed node
is non-parameterized. -/
theorem foldl_roundStep_inv (l : List Term) :
    (∀ a ∈ l, parameterized a = false) →
    ∀ acc : List (Term × Term) × RState, StateInv acc.2 →
      StateInv ((l.foldl roundStep acc).2) := by
  induction l with
  | nil => intro _ acc h; exact h
  | cons a l ih =>
    intro hl acc hacc
    rw [List.foldl_cons]
    refine ih (fun b hb => hl b (List.mem_cons_of_mem _ hb)) _ ?_
    exact betaReduceFull_inv (hl a (List.mem_cons_self _ _)) hacc

/-- A round preserves the state invariant. -/
theorem runRound_inv {g : Term} {s : RState} (hs : StateInv s) :
    StateInv ((runRound g s).2) := by
  unfold runRound
  exact foldl_roundStep_inv _ (fun a ha => mem_groundApplies_nonparam ha) _ hs

/-! ### Lemmas about the round loop -/

/-- Prepending a substitution round to a well-shaped round list keeps it
well-shaped. -/
theorem roundsShape_cons {m : List (Term × Term)} {ms : List (List (Term × Term))}
    (hm : m ≠ []) (hms : roundsShape ms = true) : roundsShape (m :: ms) = true := by
  cases ms with
  | nil => simp [roundsShape] at hms
  | cons m2 ms2 =>
    simp only [roundsShape, Bool.and_eq_true, Bool.not_eq_true']
    exact ⟨by simp [List.isEmpty_iff, hm], hms⟩

/-- When the loop returns, the final graph has no collectable ground
applies: the last executed round collected nothing and the empty rebuild
left the graph as it was. -/
theorem elimLoop_groundApplies :
    ∀ (fuel : Nat) (g : Term) (s : RState) (round : Nat) (r : PassResult),
      elimLoop fuel g s round = some r → groundApplies r.graph = [] := by
  intro fuel
  induction fuel with
  | zero => intro g s round r h; simp [elimLoop] at h
  | succ n ih =>
    intro g s round r h
    simp only [elimLoop] at h
    split at h
    · split at h
      · exact Option.noConfusion h
      · next r0 hrec =>
        injection h with h
        subst h
        simpa using ih _ _ _ _ hrec
    · next hpos =>
      injection h with h
      subst h
      have hnil : (runRound g s).1 = [] :=
        List.eq_nil_of_length_eq_zero (Nat.eq_zero_of_not_pos hpos)
      have hga : groundApplies g = [] := (runRound_nil_iff g s).mp hnil
      show groundApplies (btor_substitute_and_rebuild (runRound g s).1 g) = []
      rw [hnil, rebuild_nil]
      exact hga

/-- When the loop returns, the rebuild pass was invoked exactly once per
executed round, with that round's substitution map (including the final
zero-substitution round, where it received the empty map), and the
executed rounds are: at least one round, all with substitutions except the
last, which recorded zero. -/
theorem elimLoop_rounds_rebuilds :
    ∀ (fuel : Nat) (g : Term) (s : RState) (round : Nat) (r : PassResult),
      elimLoop fuel g s round = some r →
      r.rebuilds = r.rounds ∧ roundsShape r.rounds = true := by
  intro fuel
  induction fuel with
  | zero => intro g s round r h; simp [elimLoop] at h
  | succ n ih =>
    intro g s round r h
    simp only [elimLoop] at h
    split at h
    · next hpos =>
      split at h
      · exact Option.noConfusion h
      · next r0 hrec =>
        injection h with h
        subst h
        obtain ⟨ih1, ih2⟩ := ih _ _ _ _ hrec
        have hne : (runRound g s).1 ≠ [] := by
          intro hnil
          rw [hnil] at hpos
          exact absurd hpos (by simp)
        exact ⟨by simpa using congrArg (List.cons (runRound g s).1) ih1,
               by simpa using roundsShape_cons hne ih2⟩
    · next hpos =>
      injection h with h
      subst h
      have hnil : (runRound g s).1 = [] :=
        List.eq_nil_of_length_eq_zero (Nat.eq_zero_of_not_pos hpos)
      refine ⟨rfl, ?_⟩
      show roundsShape [(runRound g s).1] = true
      rw [hnil]
      simp [roundsShape]

/-- When the loop returns and the ledger equals the number of cache-held
references on entry, the ledger is zero after teardown: every reference
the pass acquired was released exactly once. -/
theorem elimLoop_ledger :
    ∀ (fuel : Nat) (g : Term) (s : RState) (round : Nat) (r : PassResult),
      elimLoop fuel g s round = some r → s.ledger = (s.cache.length : Int) →
      r.state.ledger = 0 := by
  intro fuel
  induction fuel with
  | zero => intro g s round r h _; simp [elimLoop] at h
  | succ n ih =>
    intro g s round r h hinv
    have hm := runRound_measure g s
    simp only [elimLoop] at h
    split at h
    · split at h
      · exact Option.noConfusion h
      · next r0 hrec =>
        injection h with h
        subst h
        have h0 : r0.state.ledger = 0 := by
          refine ih _ _ _ _ hrec ?_
          show (runRound g s).2.ledger - (((runRound g s).1).length : Int)
              = (((runRound g s).2.cache.length : Nat) : Int)
          omega
        simpa using h0
    · injection h with h
      subst h
      show (runRound g s).2.ledger - (((runRound g s).1).length : Int)
          - (((runRound g s).2.cache.length : Nat) : Int) = 0
      omega

/-- The loop preserves the threaded-state invariant into the returned
final state. -/
theorem elimLoop_stateInv :
    ∀ (fuel : Nat) (g : Term) (s : RState) (round : Nat) (r : PassResult),
      elimLoop fuel g s round = some r → StateInv s → StateInv r.state := by
  intro fuel
  induction fuel with
  | zero => intro g s round r h _; simp [elimLoop] at h
  | succ n ih =>
    intro g s round r h hs
    have hs1 : StateInv ((runRound g s).2) := runRound_inv hs
    simp only [elimLoop] at h
    split at h
    · split at h
      · exact Option.noConfusion h
      · next r0 hrec =>
        injection h with h
        subst h
        have : StateInv r0.state := ih _ _ _ _ hrec hs1
        simpa using this
    · injection h with h
      subst h
      exact hs1

/-- Every round's substitution map in the returned trace has pairwise
distinct keys (the assertion at C line 63 never fires) and only
non-parameterized keys. -/
theorem elimLoop_rounds_mem :
    ∀ (fuel : Nat) (g : Term) (s : RState) (round : Nat) (r : PassResult),
      elimLoop fuel g s round = some r →
      ∀ m ∈ r.rounds,
        (m.map Prod.fst).Nodup ∧ ∀ p ∈ m, parameterized p.1 = false := by
  intro fuel
  induction fuel with
  | zero => intro g s round r h; simp [elimLoop] at h
  | succ n ih =>
    intro g s round r h
    have hcur : ((runRound g s).1.map Prod.fst).Nodup ∧
        ∀ p ∈ (runRound g s).1, parameterized p.1 = false := by
      constructor
      · rw [runRound_keys]
        exact groundApplies_nodup g
      · intro p hp
        have : p.1 ∈ ((runRound g s).1).map Prod.fst := List.mem_map_of_mem Prod.fst hp
        rw [runRound_keys] at this
        exact mem_groundApplies_nonparam this
    simp only [elimLoop] at h
    split at h
    · split at h
      · exact Option.noConfusion h
      · next r0 hrec =>
        injection h with h
        subst h
        intro m hm
        have hm' : m = (runRound g s).1 ∨ m ∈ r0.rounds := by simpa using hm
        rcases hm' with hm' | hm'
        · subst hm'; exact hcur
        · exact ih _ _ _ _ hrec m hm'
    · injection h with h
      subst h
      intro m hm
      have hm' : m = (runRound g s).1 := by simpa using hm
      subst hm'
      exact hcur

/-- The threaded state at pass start (C line 35: fresh empty cache; no
reducer calls yet; no references held) satisfies the state invariant. -/
theorem stateInv_init : StateInv { cache := [], enc := [], red := [], ledger := 0 } :=
  ⟨List.nodup_nil, rfl,
   fun b hb => absurd hb (List.not_mem_nil b),
   fun b hb => absurd hb (List.not_mem_nil b)⟩

/-! ### The claims -/

/-- C1: for every graph on which `btor_eliminate_applies` terminates, after
the pass returns no non-parameterized (ground) application parent of any
lambda in the lambda registry remains: every surviving apply parent of
every registered lambda has its parameterized flag set. -/
theorem C1_no_ground_apply_parent_after_pass (fuel : Nat) (g : Term) (r : PassResult)
    (h : btor_eliminate_applies fuel g = some r) :
    allApplyParentsParameterized r.graph = true := by
  rw [← groundApplies_nil_iff]
  unfold btor_eliminate_applies at h
  split at h
  · next hempty =>
    injection h with h
    subst h
    show groundApplies g = []
    unfold groundApplies
    rw [hempty]
    simp
  · exact elimLoop_groundApplies _ _ _ _ _ h

/-- C1 witness: on the already-converged graph `λx. (λy. y)(x)` (whose only
apply parent is parameterized) the pass terminates with fuel 1 and the
post-condition holds. -/
theorem C1_witness : allApplyParentsParameterized resConv.graph = true :=
  C1_no_ground_apply_parent_after_pass 1 outerLam resConv (by decide)

/-- C2 counterexample: on the graph `λy. y` (nonempty registry, no ground
applies) the single round records zero substitutions, yet the Rebuild Pass
is invoked — once, with the empty map (`rebuilds = [[]]`, not `[]`).  The
do-while loop of the C source calls `btor_substitute_and_rebuild` at line
76 unconditionally, before the `num_applies > 0` test at line 79, so the
claim that a zero-substitution round stops "without invoking Rebuild Pass"
is false. -/
theorem C2_counterexample :
    (btor_eliminate_applies 1 idLam).map PassResult.rounds = some [[]] ∧
    (btor_eliminate_applies 1 idLam).map PassResult.rebuilds = some [[]] :=
  ⟨by decide, by decide⟩

/-- C2 (amended): in every executed round — including the final round that
recorded zero substitutions — Rebuild Pass is invoked exactly once with
that round's accumulated Substitution Map (the empty map in the final
round), after which the map is discarded and the round counter
incremented; the driver stops after the first round that records zero
substitutions, and every earlier round recorded at least one. -/
theorem C2_rebuild_invoked_every_round (fuel : Nat) (g : Term) (r : PassResult)
    (h : btor_eliminate_applies fuel g = some r) :
    r.rebuilds = r.rounds ∧ (lambdasOf g ≠ [] → roundsShape r.rounds = true) := by
  unfold btor_eliminate_applies at h
  split at h
  · next hempty =>
    injection h with h
    subst h
    exact ⟨rfl, fun hne => absurd hempty hne⟩
  · obtain ⟨h1, h2⟩ := elimLoop_rounds_rebuilds _ _ _ _ _ h
    exact ⟨h1, fun _ => h2⟩

/-- C2 witness: Scenario A runs one substitution round and one final empty
round; the rebuild invocations match the rounds one for one. -/
theorem C2_witness :
    resA.rebuilds = resA.rounds ∧
      (lambdasOf scenarioA ≠ [] → roundsShape resA.rounds = true) :=
  C2_rebuild_invoked_every_round 2 scenarioA resA (by decide)

/-- C3: every reference acquired from beta-reducer output is released
exactly once along every path, so the net change in live reference count
attributable to the pass is zero once the Pair Cache and every round's
Substitution Map are torn down: on return the reference ledger is zero. -/
theorem C3_reference_count_conservation (fuel : Nat) (g : Term) (r : PassResult)
    (h : btor_eliminate_applies fuel g = some r) :
    r.state.ledger = 0 := by
  unfold btor_eliminate_applies at h
  split at h
  · injection h with h
    subst h
    rfl
  · exact elimLoop_ledger _ _ _ _ _ h (by simp)

/-- C3 witness: the ledger is zero after the pass on Scenario B. -/
theorem C3_witness : resB.state.ledger = 0 :=
  C3_reference_count_conservation 3 scenarioB resB (by decide)

/-- C4: for every graph whose lambda registry is empty,
`btor_eliminate_applies` returns immediately — zero rounds, zero rebuild
invocations, no state, and the graph (hence its reachable node set)
unchanged. -/
theorem C4_empty_registry_noop (fuel : Nat) (g : Term) (h : lambdasOf g = []) :
    btor_eliminate_applies fuel g =
      some { graph := g, rounds := [], rebuilds := [], msgs := [],
             state := { cache := [], enc := [], red := [], ledger := 0 },
             cacheCreated := false, timeUpdated := false } := by
  unfold btor_eliminate_applies
  rw [if_pos h]

/-- C4 witness: on the lambda-free graph `var 1` the pass is a no-op even
with fuel to spare. -/
theorem C4_witness :
    btor_eliminate_applies 7 (Term.var 1) =
      some { graph := Term.var 1, rounds := [], rebuilds := [], msgs := [],
             state := { cache := [], enc := [], red := [], ledger := 0 },
             cacheCreated := false, timeUpdated := false } :=
  C4_empty_registry_noop 7 (Term.var 1) (by decide)

/-- C5: the pass is idempotent: re-running it on a graph it has already
converged on leaves the graph unchanged, and — whenever the converged
graph still has a nonempty lambda registry, so that a round 1 exists —
records zero substitutions in round 1 and converges after that single
round (with an empty registry it returns immediately with zero rounds). -/
theorem C5_idempotent (fuel : Nat) (g : Term) (r : PassResult)
    (h : btor_eliminate_applies fuel g = some r)
    (fuel2 : Nat) (hf : 0 < fuel2) :
    (btor_eliminate_applies fuel2 r.graph).map PassResult.graph = some r.graph ∧
    (lambdasOf r.graph = [] →
      (btor_eliminate_applies fuel2 r.graph).map PassResult.rounds = some []) ∧
    (lambdasOf r.graph ≠ [] →
      (btor_eliminate_applies fuel2 r.graph).map PassResult.rounds = some [[]]) := by
  have hga : groundApplies r.graph = [] := by
    unfold btor_eliminate_applies at h
    split at h
    · next hempty =>
      injection h with h
      subst h
      show groundApplies g = []
      unfold groundApplies
      rw [hempty]
      simp
    · exact elimLoop_groundApplies _ _ _ _ _ h
  by_cases hreg : lambdasOf r.graph = []
  · rw [C4_empty_registry_noop fuel2 r.graph hreg]
    exact ⟨rfl, fun _ => rfl, fun hne => absurd hreg hne⟩
  · obtain ⟨k, rfl⟩ : ∃ k, fuel2 = k + 1 := ⟨fuel2 - 1, by omega⟩
    unfold btor_eliminate_applies
    rw [if_neg hreg]
    simp only [elimLoop, runRound_of_nil hga]
    refine ⟨?_, fun hreg2 => absurd hreg2 hreg, fun _ => ?_⟩
    · simp [rebuild_nil]
    · simp

/-- C5 witness: re-running the pass on the converged graph
`λx. (λy. y)(x)` (nonempty registry) performs exactly one round with zero
substitutions and leaves the graph unchanged. -/
theorem C5_witness :
    (btor_eliminate_applies 1 resConv.graph).map PassResult.graph = some resConv.graph ∧
    (lambdasOf resConv.graph = [] →
      (btor_eliminate_applies 1 resConv.graph).map PassResult.rounds = some []) ∧
    (lambdasOf resConv.graph ≠ [] →
      (btor_eliminate_applies 1 resConv.graph).map PassResult.rounds = some [[]]) :=
  C5_idempotent 1 outerLam resConv (by decide) 1 (by decide)

/-- C6: for applications of the same lambda to the same arguments handed to
the beta-reducer during one pass — also across rounds, since the Pair
Cache is created once before the round loop and threaded through all
rounds — exactly one primitive reduction happens; later occurrences are
served from the Pair Cache, so each encountered pair occurs exactly once
in the primitive-reduction log. -/
theorem C6_cache_single_reduction (fuel : Nat) (g : Term) (r : PassResult)
    (h : btor_eliminate_applies fuel g = some r) (a : Term) (ha : a ∈ r.state.enc) :
    redCount (pairKey a) r.state.red = 1 := by
  have hinv : StateInv r.state := by
    unfold btor_eliminate_applies at h
    split at h
    · injection h with h
      subst h
      exact stateInv_init
    · exact elimLoop_stateInv _ _ _ _ _ h stateInv_init
  obtain ⟨h1, _, h3, _⟩ := hinv
  unfold redCount
  exact List.count_eq_one_of_mem h1 (h3 a ha)

/-- C6 witness: in `twiceG` the apply `(λy. y)(v)` is handed to the
beta-reducer twice — in round 1 and again in round 2, after the rebuild
re-exposed it — yet its pair appears exactly once in the
primitive-reduction log; the second encounter was a cache hit. -/
theorem C6_witness : redCount (pairKey scenarioA) resTwice.state.red = 1 :=
  C6_cache_single_reduction 4 twiceG resTwice (by decide) scenarioA (by decide)

/-- C7: on the graph `(λx. (λy. y)(x))(v)` of Scenario B, round 1 records
exactly one substitution replacing the outer apply by the fresh ground
apply `(λy. y)(v)` (a node not present in the input graph), round 2
records exactly one substitution replacing that apply by `v`, and the pass
converges after 3 rounds (two substitution rounds plus one empty
confirming round), yielding `v`. -/
theorem C7_scenario_b :
    (btor_eliminate_applies 3 scenarioB).map PassResult.rounds =
      some [[(scenarioB, Term.app idLam v0)], [(Term.app idLam v0, v0)], []] ∧
    (btor_eliminate_applies 3 scenarioB).map PassResult.graph = some v0 ∧
    parameterized (Term.app idLam v0) = false ∧
    Term.app idLam v0 ∉ nodes scenarioB :=
  ⟨by decide, by decide, by decide, by decide⟩

/-- C8: within any single round, each apply node is inserted into that
round's Substitution Map at most once — the keys of every round's map are
pairwise distinct, so the duplicate-substitution debug assertion (C line
63) never fires, for any input graph. -/
theorem C8_no_duplicate_insertion (fuel : Nat) (g : Term) (r : PassResult)
    (h : btor_eliminate_applies fuel g = some r) :
    allRoundKeysDistinct r.rounds = true := by
  rw [allRoundKeysDistinct, List.all_eq_true]
  intro m hm
  rw [decide_eq_true_eq]
  unfold btor_eliminate_applies at h
  split at h
  · injection h with h
    subst h
    simp at hm
  · exact (elimLoop_rounds_mem _ _ _ _ _ h m hm).1

/-- C8 witness: on `twiceG`, whose first round inserts two distinct
applies, every round's key list is duplicate-free. -/
theorem C8_witness : allRoundKeysDistinct resTwice.rounds = true :=
  C8_no_duplicate_insertion 4 twiceG resTwice (by decide)

/-- C9: the pass never beta-reduces or records a substitution for a
parameterized application parent: every node handed to the beta-reducer
and every key of every round's Substitution Map is non-parameterized. -/
theorem C9_only_ground_applies_processed (fuel : Nat) (g : Term) (r : PassResult)
    (h : btor_eliminate_applies fuel g = some r) :
    allRoundKeysGround r.rounds = true ∧ allEncGround r.state.enc = true := by
  have hinv : StateInv r.state := by
    unfold btor_eliminate_applies at h
    split at h
    · injection h with h
      subst h
      exact stateInv_init
    · exact elimLoop_stateInv _ _ _ _ _ h stateInv_init
  constructor
  · rw [allRoundKeysGround, List.all_eq_true]
    intro m hm
    rw [List.all_eq_true]
    intro p hp
    have hpar : parameterized p.1 = false := by
      unfold btor_eliminate_applies at h
      split at h
      · injection h with h
        subst h
        simp at hm
      · exact (elimLoop_rounds_mem _ _ _ _ _ h m hm).2 p hp
    simp [hpar]
  · rw [allEncGround, List.all_eq_true]
    intro a ha
    have := hinv.2.2.2 a ha
    simp [this]

/-- C9 witness: on Scenario B both rounds' keys and both reducer inputs
are ground, while the parameterized inner apply `(λy. y)(x)` was skipped. -/
theorem C9_witness :
    allRoundKeysGround resB.rounds = true ∧ allEncGround resB.state.enc = true :=
  C9_only_ground_applies_processed 3 scenarioB resB (by decide)

/-- C10: on the empty-lambda-registry early-return path the pass allocates
no Pair Cache, emits no per-round diagnostic record, leaves the cumulative
elapsed-time statistic `btor->time.elimapplies` untouched, and leaves the
graph untouched. -/
theorem C10_early_return_frame (fuel : Nat) (g : Term) (r : PassResult)
    (hempty : lambdasOf g = []) (h : btor_eliminate_applies fuel g = some r) :
    r.cacheCreated = false ∧ r.msgs = [] ∧ r.timeUpdated = false ∧ r.graph = g := by
  unfold btor_eliminate_applies at h
  rw [if_pos hempty] at h
  injection h with h
  subst h
  exact ⟨rfl, rfl, rfl, rfl⟩

/-- C10 witness: the early return on the lambda-free graph `bvar 3`
creates no cache, emits nothing and updates no time statistic. -/
theorem C10_witness :
    resEmptyReg.cacheCreated = false ∧ resEmptyReg.msgs = [] ∧
      resEmptyReg.timeUpdated = false ∧ resEmptyReg.graph = Term.bvar 3 :=
  C10_early_return_frame 0 (Term.bvar 3) resEmptyReg (by decide) (by decide)

end ElimApplies
